import Mathlib

set_option maxRecDepth 100000

/-!
Shallow embedding of `src/secret_sharing.js` (Shamir secret-sharing share
reconstruction and wrong-share detection).

Modelling conventions:
* JS `BigInt` values become `Int`.  The JS truncating operators `/` and `%`
  on `BigInt` (quotient rounded toward zero, remainder taking the sign of the
  dividend) become `Int.tdiv` and `Int.tmod`.
* A share (JS `Uint8Array`) becomes a `List Nat` of byte values; the byte at
  position 0 is the share index, the remaining bytes are the payload.
* A thrown JS exception becomes `Except.error`.  `SSError.divisionByZero`
  models the `RangeError` thrown by BigInt division by zero inside
  `modInverse`, and `SSError.duplicateShare` models the
  `Duplicate share detected` error thrown by `formatSharesFromJSON`.
* The `while (aa > 1n)` loop of `modInverse` is modelled by structural
  recursion on a fuel argument; the fuel `p.natAbs + 1` is provably larger
  than the number of iterations the Euclidean loop can perform (the absolute
  value of the second state component strictly decreases on every
  iteration), so the out-of-fuel branch is unreachable from `modInverse`.
-/

inductive SSError where
  | duplicateShare
  | divisionByZero
deriving DecidableEq, Repr

deriving instance DecidableEq for Except

/-- Body of the `while (aa > 1n)` loop in `modInverse` (source lines 96 to
104).  State: `aa`, `p`, `x0`, `x1` exactly as in the source; `q = aa / p`
(truncated) and `aa % p` have the JS BigInt semantics `Int.tdiv` /
`Int.tmod`.  When `p = 0` and the loop is entered, the JS division
`aa / p` throws; this is the `divisionByZero` branch. -/
def modInverseLoop : Nat → Int → Int → Int → Int → Except SSError Int
  | 0, _, _, _, _ => .error .divisionByZero
  | fuel + 1, aa, p, x0, x1 =>
    if aa > 1 then
      if p = 0 then .error .divisionByZero
      else modInverseLoop fuel p (aa.tmod p) (x1 - aa.tdiv p * x0) x0
    else .ok x1

/-- Source lines 90 to 107: `modInverse(a, p)`.  Checks `p === 1n` first,
runs the extended-Euclidean loop with initial state `aa = a`, `x0 = 0`,
`x1 = 1`, then adds the original modulus `m0 = p` when the result is
negative. -/
def modInverse (a p : Int) : Except SSError Int :=
  if p = 1 then .ok 0
  else
    match modInverseLoop (p.natAbs + 1) a p 0 1 with
    | .error e => .error e
    | .ok x1 => .ok (if x1 < 0 then x1 + p else x1)

/-- Source lines 32 to 37: `padDataBytes(data, length)` left-pads with zero
bytes up to `length`; data already at least that long is returned as is. -/
def padDataBytes (data : List Nat) (length : Nat) : List Nat :=
  if data.length ≥ length then data
  else List.replicate (length - data.length) 0 ++ data

/-- Source lines 40 to 75: `formatSharesFromJSON`, modelled after the
base-N string decoding (lines 45 to 53, out of the algorithmic core) has
produced for every record its integer index and its payload byte sequence.
Each share becomes the byte array `index :: payload` (the `Uint8Array`
assignment `share[0] = index` truncates the index modulo 256), payloads
left-padded to the maximal payload length.  The duplicate check (lines 64
to 72) serialises each share to hex and throws on a repeated serialisation;
on byte arrays of equal length that is exactly equality of the byte lists,
so it is modelled as a `Nodup` test on the share list. -/
def formatSharesFromJSON (sharesData : List (Nat × List Nat)) :
    Except SSError (List (List Nat)) :=
  let maxDataLen := (sharesData.map (fun sd => sd.2.length)).foldl max 0
  let shares := sharesData.map
    (fun sd => (sd.1 % 256) :: padDataBytes sd.2 maxDataLen)
  if shares.Nodup then .ok shares else .error .duplicateShare

/-- Source lines 78 to 87: `sharesToPoints` maps each share to the point
`(x, y)` with `x` the byte at index 0 and `y` the big-endian integer value
of the remaining bytes (`y = (y << 8n) + BigInt(s[i])`).  Shares produced
by `formatSharesFromJSON` are always nonempty; the empty byte list (on
which the JS code would fault) is mapped to `(0, 0)`. -/
def sharesToPoints (shares : List (List Nat)) : List (Int × Int) :=
  shares.map (fun s =>
    ((s.headD 0 : Nat), (s.tail.foldl (fun y b => y * 256 + (b : Int)) 0)))

/-- Inner `for (j ...)` loop shared by source lines 116 to 121 and lines
141 to 146: running over the enumerated point list, every index `j ≠ i`
multiplies the accumulator by `(x - xj) * modInverse(xi - xj, prime)` and
reduces with the sign-preserving `%`.  At `x = 0` this is the loop of
`lagrangeInterpolationAtZero` (where the source writes `0n - xj`); at the
x-coordinate of a checked share it is the loop of `detectWrongShares`.
Note that the difference `xi - xj` is passed to `modInverse` exactly as in
the source, without any normalisation into `[0, prime)`. -/
def liLoop (xi x prime : Int) (i : Nat) :
    List (Nat × (Int × Int)) → Int → Except SSError Int
  | [], li => .ok li
  | (j, pj) :: rest, li =>
    if j ≠ i then
      match modInverse (xi - pj.1) prime with
      | .error e => .error e
      | .ok inv => liLoop xi x prime i rest ((li * (x - pj.1) * inv).tmod prime)
    else liLoop xi x prime i rest li

/-- Outer `for (i ...)` loop of source lines 113 to 123: accumulates
`secret = (prime + secret + yi * li) % prime` over the enumerated points. -/
def lagrangeSum (points : List (Int × Int)) (prime : Int) :
    List (Nat × (Int × Int)) → Int → Except SSError Int
  | [], secret => .ok secret
  | (i, pt) :: rest, secret =>
    match liLoop pt.1 0 prime i points.enum 1 with
    | .error e => .error e
    | .ok li => lagrangeSum points prime rest ((prime + secret + pt.2 * li).tmod prime)

/-- Source lines 110 to 125: `lagrangeInterpolationAtZero(points, prime)`. -/
def lagrangeInterpolationAtZero (points : List (Int × Int)) (prime : Int) :
    Except SSError Int :=
  lagrangeSum points prime points.enum 0

/-- Outer `for (i ...)` loop of source lines 138 to 148: accumulates
`yEstimate = (yEstimate + yi * li) % prime` over the enumerated subset
(note: unlike line 122, no `prime +` is added before reducing). -/
def yEstimateSum (subset : List (Int × Int)) (x prime : Int) :
    List (Nat × (Int × Int)) → Int → Except SSError Int
  | [], yEstimate => .ok yEstimate
  | (i, pt) :: rest, yEstimate =>
    match liLoop pt.1 x prime i subset.enum 1 with
    | .error e => .error e
    | .ok li => yEstimateSum subset x prime rest ((yEstimate + pt.2 * li).tmod prime)

/-- Estimate of the y value at coordinate `x` from the threshold subset,
as computed in source lines 137 to 148. -/
def yEstimateAt (subset : List (Int × Int)) (x prime : Int) : Except SSError Int :=
  yEstimateSum subset x prime subset.enum 0

/-- Loop `for (const [x, y] of points)` of source lines 136 to 152: a share
whose estimate differs from its actual `y` is appended (as the pair of its
x coordinate and its actual value, cf. `wrongShares.push([Number(x),
y.toString()])`) to the accumulated wrong-share list. -/
def detectLoop (subset : List (Int × Int)) (prime : Int) :
    List (Int × Int) → List (Int × Int) → Except SSError (List (Int × Int))
  | [], acc => .ok acc
  | pt :: rest, acc =>
    match yEstimateAt subset pt.1 prime with
    | .error e => .error e
    | .ok yEstimate =>
      detectLoop subset prime rest (if yEstimate ≠ pt.2 then acc ++ [pt] else acc)

/-- Source lines 128 to 154: `detectWrongShares(shares, threshold, prime)`.
Returns `{ secret: null, wrongShares: [] }` when fewer than `threshold`
shares are supplied; otherwise interpolates the first `threshold` points
(`points.slice(0, threshold)`) at zero and flags every point whose
estimate disagrees with its actual y value. -/
def detectWrongShares (shares : List (List Nat)) (threshold : Nat) (prime : Int) :
    Except SSError (Option Int × List (Int × Int)) :=
  if shares.length < threshold then .ok (none, [])
  else
    let points := sharesToPoints shares
    let subset := points.take threshold
    match lagrangeInterpolationAtZero subset prime with
    | .error e => .error e
    | .ok secret =>
      match detectLoop subset prime points [] with
      | .error e => .error e
      | .ok wrongShares => .ok (some secret, wrongShares)

/-- Source line 157: the hardcoded Mersenne prime `2n ** 521n - 1n`. -/
def PRIME : Int := 2 ^ 521 - 1

/-- Untampered demonstration share set from the spec: indices 1, 2, 3 with
single-byte payloads 0x07, 0x0D, 0x13.  All three points lie on the line
`y = 6 * x + 1` over the integers (and hence over the prime field). -/
def demoShares : List (List Nat) := [[1, 0x07], [2, 0x0D], [3, 0x13]]

/-- C1: the claim states that for an untampered share set (pairwise
distinct x coordinates, all points on one polynomial of degree at most
k - 1) with n >= k shares, `detectWrongShares` returns an empty
wrongShares list.  The code violates this: the three demonstration shares
all lie on the single degree-1 polynomial `y = 6 * x + 1`, have distinct
x coordinates 1, 2, 3, and n = 3 >= k = 2, yet `detectWrongShares` flags
shares 1 and 3 as wrong (the root cause is `modInverse` returning 1 on the
negative un-normalised difference `xi - xj`). -/
theorem c1_detect_flags_untampered_shares :
    (∀ pt ∈ sharesToPoints demoShares, pt.2 = 6 * pt.1 + 1) ∧
    (sharesToPoints demoShares).Pairwise (fun a b => a.1 ≠ b.1) ∧
    2 ≤ demoShares.length ∧
    detectWrongShares demoShares 2 PRIME =
      .ok (some (2 ^ 521 - 28), [(1, 7), (3, 19)]) := by
  refine ⟨by decide, by decide, by decide, by decide⟩

/-- C2 counterexample: on the spec scenario (modulus 2 ^ 521 - 1, shares
(1, 0x07), (2, 0x0D), (3, 0x13), threshold 2) the code neither
reconstructs 3 from the first two points nor reports an empty wrongShares
list. -/
theorem c2_counterexample :
    lagrangeInterpolationAtZero [(1, 7), (2, 13)] PRIME ≠ .ok 3 ∧
    detectWrongShares demoShares 2 PRIME ≠ .ok (some 3, []) := by
  refine ⟨by decide, by decide⟩

/-- C2 amended: on the spec scenario the code reconstructs
2 ^ 521 - 28 from the first two points (note the three points lie on
`y = 6 * x + 1`, so even exact interpolation would give 1, not 3) and
reports wrongShares = [(1, 7), (3, 19)]. -/
theorem c2_actual_outputs :
    lagrangeInterpolationAtZero [(1, 7), (2, 13)] PRIME = .ok (2 ^ 521 - 28) ∧
    detectWrongShares demoShares 2 PRIME =
      .ok (some (2 ^ 521 - 28), [(1, 7), (3, 19)]) := by
  refine ⟨by decide, by decide⟩

/-- C3: the claim states that every subtraction result is normalised into
[0, m) before further use, that `modInverse` only receives non-negative
canonical representatives, and that the returned result lies in [0, m).
The code violates all three: the per-share estimate of share 1 from the
subset [(1, 7), (2, 13)] is the negative value -7 (an accumulated
intermediate outside [0, m) that is then compared against y), the
interpolation of [(1, PRIME - 1), (2, PRIME - 1)] returns the negative
value 3 - PRIME, and `modInverse` receives the un-normalised negative
difference 1 - 2 (returning 1 for it). -/
theorem c3_unnormalised_negative_values :
    yEstimateAt [(1, 7), (2, 13)] 1 PRIME = .ok (-7) ∧
    lagrangeInterpolationAtZero [(1, PRIME - 1), (2, PRIME - 1)] PRIME =
      .ok (3 - PRIME) ∧
    3 - PRIME < 0 ∧
    modInverse (1 - 2) PRIME = .ok 1 := by
  refine ⟨by decide, by decide, by decide, by decide⟩

/-- C4: for every negative `a` and every modulus `p ≠ 1`, `modInverse`
returns 1 without signalling any error: the reduction loop guard
`aa > 1` is false from the start, so the initial `x1 = 1` is returned
unchanged.  (The call sites in `liLoop`, used by both
`lagrangeInterpolationAtZero` and `detectWrongShares`, pass the
un-normalised difference `xi - xj`, which is negative whenever
`xi < xj`.) -/
theorem c4_modInverse_negative_returns_one (a p : Int) (ha : a < 0) (hp : p ≠ 1) :
    modInverse a p = .ok 1 := by
  unfold modInverse
  rw [if_neg hp]
  have h1 : ¬ a > 1 := by omega
  simp only [modInverseLoop]
  rw [if_neg h1]
  norm_num

/-- C4 witness: the difference 1 - 2 arising from the demonstration subset
is mapped to 1 by `modInverse` at the hardcoded prime. -/
theorem c4_witness : modInverse (1 - 2) PRIME = .ok 1 :=
  c4_modInverse_negative_returns_one (1 - 2) PRIME (by decide) (by decide)

/-- C6: the claim states that two shares with the same index but differing
payloads make processing fail with an error.  The code violates this:
`formatSharesFromJSON` only rejects byte-identical shares, so the two
shares (index 1, payload 0x07) and (index 1, payload 0x0D) pass
formatting, and `detectWrongShares` then completes without any error:
`modInverse(0, PRIME)` silently returns 1 (the loop guard `aa > 1` is
false for 0), so detection returns the meaningless secret 2 ^ 521 - 21. -/
theorem c6_duplicate_index_completes_silently :
    formatSharesFromJSON [(1, [7]), (1, [13])] = .ok [[1, 7], [1, 13]] ∧
    detectWrongShares [[1, 7], [1, 13]] 2 PRIME =
      .ok (some (2 ^ 521 - 21), [(1, 7), (1, 13)]) := by
  refine ⟨by decide, by decide⟩

/-- C7: the claim states that for points on a single polynomial of degree
at most k - 1 with distinct x coordinates, interpolating at zero over any
two k-sized subsets yields the same value.  The code violates this: all
three demonstration points lie on `y = 6 * x + 1`, yet the subset
[(1, 7), (2, 13)] interpolates to 2 ^ 521 - 28 while the subset
[(2, 13), (3, 19)] interpolates to 2 ^ 521 - 78. -/
theorem c7_different_subsets_different_secrets :
    (∀ pt ∈ sharesToPoints demoShares, pt.2 = 6 * pt.1 + 1) ∧
    lagrangeInterpolationAtZero [(1, 7), (2, 13)] PRIME = .ok (2 ^ 521 - 28) ∧
    lagrangeInterpolationAtZero [(2, 13), (3, 19)] PRIME = .ok (2 ^ 521 - 78) ∧
    (2 ^ 521 - 28 : Int) ≠ 2 ^ 521 - 78 := by
  refine ⟨by decide, by decide, by decide, by decide⟩

/-- C9: with fewer shares than the threshold, `detectWrongShares` returns
secret `null` (modelled as `none`) and an empty wrongShares list, without
signalling any error. -/
theorem c9_insufficient_shares (shares : List (List Nat)) (threshold : Nat)
    (prime : Int) (h : shares.length < threshold) :
    detectWrongShares shares threshold prime = .ok (none, []) := by
  unfold detectWrongShares
  rw [if_pos h]

/-- C9 witness: one share against threshold 2. -/
theorem c9_witness : detectWrongShares [[1, 7]] 2 PRIME = .ok (none, []) :=
  c9_insufficient_shares [[1, 7]] 2 PRIME (by decide)

/-- C10: the claim states that a share with index zero is rejected with
`InvalidShareError`.  The code has no such check: formatting accepts the
share (0, payload 0x09), `sharesToPoints` maps it to the field point
(0, 9), and with threshold 1 detection then returns that share value 9
directly as the reconstructed secret, with no share flagged. -/
theorem c10_zero_index_accepted :
    formatSharesFromJSON [(0, [9])] = .ok [[0, 9]] ∧
    sharesToPoints [[0, 9]] = [(0, 9)] ∧
    detectWrongShares [[0, 9]] 1 PRIME = .ok (some 9, []) := by
  refine ⟨by decide, by decide, by decide⟩
/-- Invariant of the extended-Euclidean loop: if `x1` and `x0` are Bezout
coefficients of the current state pair (`A * x1 ≡ aa` and `A * x0 ≡ p`
modulo `m`), the state is non-negative with `gcd aa p = 1`, and the fuel
exceeds `natAbs p`, then the loop terminates successfully with a value `r`
satisfying `A * r ≡ 1 [ZMOD m]`. -/
theorem modInverseLoop_bezout (A m : Int) :
    ∀ fuel : Nat, ∀ aa p x0 x1 : Int, p.natAbs < fuel → 0 < aa → 0 ≤ p →
      Int.gcd aa p = 1 → A * x1 ≡ aa [ZMOD m] → A * x0 ≡ p [ZMOD m] →
      ∃ r, modInverseLoop fuel aa p x0 x1 = .ok r ∧ A * r ≡ 1 [ZMOD m] := by
  intro fuel
  induction fuel with
  | zero => intro aa p x0 x1 hf; omega
  | succ n ih =>
    intro aa p x0 x1 hf haa hp hg hx1 hx0
    by_cases h1 : aa > 1
    · have hp0 : p ≠ 0 := by
        intro h
        subst h
        rw [Int.gcd_zero_right] at hg
        omega
      have hppos : 0 < p := lt_of_le_of_ne hp (Ne.symm hp0)
      have htm : aa.tmod p = aa % p := Int.tmod_eq_emod (le_of_lt haa) hp
      have hrnn : 0 ≤ aa % p := Int.emod_nonneg aa hp0
      have hrlt : aa % p < p := Int.emod_lt_of_pos aa hppos
      have hg' : Int.gcd p (aa.tmod p) = 1 := by
        rw [htm]
        have e1 : aa = ((aa.toNat : Nat) : Int) := (Int.toNat_of_nonneg (le_of_lt haa)).symm
        have e2 : p = ((p.toNat : Nat) : Int) := (Int.toNat_of_nonneg hp).symm
        rw [e1, e2] at hg ⊢
        rw [← Int.ofNat_emod, Int.gcd_natCast_natCast] at *
        rw [Nat.gcd_comm, ← Nat.gcd_rec, Nat.gcd_comm]
        exact hg
      have hq : aa.tmod p = aa - p * aa.tdiv p := by
        have h := Int.tdiv_add_tmod aa p
        linarith
      have hx0' : A * (x1 - aa.tdiv p * x0) ≡ aa.tmod p [ZMOD m] := by
        have h2 : A * (x1 - aa.tdiv p * x0) = A * x1 - aa.tdiv p * (A * x0) := by ring
        rw [h2, hq]
        have h3 : aa.tdiv p * (A * x0) ≡ aa.tdiv p * p [ZMOD m] :=
          Int.ModEq.mul_left _ hx0
        have h4 := Int.ModEq.sub hx1 h3
        calc A * x1 - aa.tdiv p * (A * x0)
            ≡ aa - aa.tdiv p * p [ZMOD m] := h4
          _ = aa - p * aa.tdiv p := by ring
      have hfm : (aa.tmod p).natAbs < n := by
        rw [htm]
        omega
      obtain ⟨r, hrec, hr⟩ := ih p (aa.tmod p) (x1 - aa.tdiv p * x0) x0
        hfm hppos (by rw [htm]; exact hrnn) hg' hx0 hx0'
      refine ⟨r, ?_, hr⟩
      simp only [modInverseLoop]
      rw [if_pos h1, if_neg hp0]
      exact hrec
    · refine ⟨x1, ?_, ?_⟩
      · simp only [modInverseLoop]
        rw [if_neg h1]
      · have h2 : aa = 1 := by omega
        rw [h2] at hx1
        exact hx1
/-- C5 amended: for every non-negative integer `a` and every modulus
`m ≠ 1` with `gcd(a, m) = 1`, `modInverse` returns a value `b` with
`(a * b) mod m = 1`. -/
theorem c5_modInverse_extended_euclid (a m : Nat) (hm : m ≠ 1)
    (hg : Nat.gcd a m = 1) :
    ∃ b : Int, modInverse (a : Int) (m : Int) = .ok b ∧
      ((a : Int) * b) % (m : Int) = 1 := by
  have hm1 : (m : Int) ≠ 1 := by exact_mod_cast hm
  rcases Nat.lt_or_ge a 2 with ha2 | ha2
  · have : a = 0 ∨ a = 1 := by omega
    rcases this with h | h
    · subst h
      rw [Nat.gcd_zero_left] at hg
      exact absurd hg hm
    · subst h
      refine ⟨1, ?_, ?_⟩
      · unfold modInverse
        rw [if_neg hm1]
        norm_num [modInverseLoop]
      · rcases Nat.eq_zero_or_pos m with h0 | hpos
        · subst h0
          decide
        · have h2 : 2 ≤ m := by omega
          rw [Nat.cast_one, one_mul]
          exact Int.emod_eq_of_lt (by norm_num) (by exact_mod_cast h2)
  · have hm0 : m ≠ 0 := by
      intro h
      subst h
      rw [Nat.gcd_zero_right] at hg
      omega
    have hm2 : 2 ≤ m := by omega
    obtain ⟨r, hloop, hr⟩ := modInverseLoop_bezout (a : Int) (m : Int)
      ((m : Int).natAbs + 1) (a : Int) (m : Int) 0 1
      (by omega)
      (by exact_mod_cast Nat.lt_of_lt_of_le Nat.zero_lt_two ha2)
      (by positivity)
      (by rw [Int.gcd_natCast_natCast]; exact hg)
      (by rw [mul_one])
      (by rw [mul_zero]; exact (Int.modEq_zero_iff_dvd.mpr dvd_rfl).symm)
    refine ⟨if r < 0 then r + m else r, ?_, ?_⟩
    · unfold modInverse
      rw [if_neg hm1, hloop]
    · have hb : (a : Int) * (if r < 0 then r + m else r) ≡ 1 [ZMOD (m : Int)] := by
        by_cases hrneg : r < 0
        · rw [if_pos hrneg]
          have h2 : (a : Int) * (r + m) = (a : Int) * r + (a : Int) * m := by ring
          rw [h2]
          have hz : (a : Int) * m ≡ 0 [ZMOD (m : Int)] :=
            Int.modEq_zero_iff_dvd.mpr ⟨a, mul_comm _ _⟩
          calc (a : Int) * r + (a : Int) * m
              ≡ (a : Int) * r + 0 [ZMOD (m : Int)] := (Int.ModEq.refl _).add hz
            _ = (a : Int) * r := by ring
            _ ≡ 1 [ZMOD (m : Int)] := hr
        · rw [if_neg hrneg]
          exact hr
      have hb2 : ((a : Int) * (if r < 0 then r + m else r)) % (m : Int) = 1 % (m : Int) := hb
      rw [hb2]
      exact Int.emod_eq_of_lt (by norm_num) (by exact_mod_cast hm2)

/-- C5 counterexample: the claim fails at `a = 0`, `m = 1`: the gcd is 1,
but `modInverse` returns 0 and no integer times 0 is congruent to 1
modulo 1 (everything reduces to 0). -/
theorem c5_counterexample :
    Nat.gcd 0 1 = 1 ∧ modInverse ((0 : Nat) : Int) ((1 : Nat) : Int) = .ok 0 ∧
      (((0 : Nat) : Int) * 0) % ((1 : Nat) : Int) ≠ 1 := by
  refine ⟨by decide, by decide, by decide⟩

/-- C5 witness: the inverse of 3 modulo 7 is computed correctly. -/
theorem c5_witness :
    ∃ b : Int, modInverse ((3 : Nat) : Int) ((7 : Nat) : Int) = .ok b ∧
      (((3 : Nat) : Int) * b) % ((7 : Nat) : Int) = 1 :=
  c5_modInverse_extended_euclid 3 7 (by decide) (by decide)
/-- Accumulator characterisation of the detection loop: as long as every
estimate succeeds, the loop appends to `acc` exactly the points whose
estimate disagrees with their actual y value, preserving input order. -/
theorem detectLoop_eq_filter (subset : List (Int × Int)) (p : Int) :
    ∀ (pts acc : List (Int × Int)),
      (∀ pt ∈ pts, ∃ e, yEstimateAt subset pt.1 p = .ok e) →
      detectLoop subset p pts acc =
        .ok (acc ++ pts.filter
          (fun pt => decide (yEstimateAt subset pt.1 p ≠ .ok pt.2))) := by
  intro pts
  induction pts with
  | nil =>
    intro acc h
    simp [detectLoop]
  | cons pt rest ih =>
    intro acc h
    obtain ⟨e, he⟩ := h pt (List.mem_cons_self _ _)
    have hrest : ∀ q ∈ rest, ∃ e, yEstimateAt subset q.1 p = .ok e :=
      fun q hq => h q (List.mem_cons_of_mem _ hq)
    simp only [detectLoop, he]
    by_cases hey : e = pt.2
    · rw [if_neg (by simp [hey])]
      rw [ih _ hrest]
      have hpred : (decide (yEstimateAt subset pt.1 p ≠ .ok pt.2)) = false := by
        simp [he, hey]
      simp only [List.filter_cons, hpred]
      simp
    · rw [if_pos hey]
      rw [ih _ hrest]
      have hpred : (decide (yEstimateAt subset pt.1 p ≠ .ok pt.2)) = true := by
        simp [he, hey]
      simp only [List.filter_cons, hpred]
      simp

/-- C8 amended: when at least `threshold` shares are supplied,
`detectWrongShares` interpolates exactly the first `threshold` points in
input order, computes for every share (subset members included) the
code Lagrange-formula estimate at the share x coordinate from that
subset, and returns exactly the pairs (x, actual y) of the shares whose
estimate differs from their stored y value, in input order.  (The claim
as frozen says the subset-derived polynomial is evaluated; because of the
`modInverse` negative-argument defect the estimate is not that
polynomial, see the counterexample.) -/
theorem c8_detect_first_subset_filter (shares : List (List Nat)) (threshold : Nat)
    (prime : Int) (hlen : ¬ shares.length < threshold) (s : Int)
    (hs : lagrangeInterpolationAtZero ((sharesToPoints shares).take threshold) prime
      = .ok s)
    (hest : ∀ pt ∈ sharesToPoints shares,
      ∃ e, yEstimateAt ((sharesToPoints shares).take threshold) pt.1 prime = .ok e) :
    detectWrongShares shares threshold prime = .ok (some s,
      (sharesToPoints shares).filter
        (fun pt => decide (yEstimateAt ((sharesToPoints shares).take threshold)
          pt.1 prime ≠ .ok pt.2))) := by
  unfold detectWrongShares
  rw [if_neg hlen]
  simp only [hs]
  rw [detectLoop_eq_filter _ _ _ [] hest]
  simp

/-- C8 counterexample: on the untampered demonstration shares with
threshold 2, the share (1, 7) is a member of the interpolation subset and
lies on the polynomial `y = 6 * x + 1` through both subset points (so the
subset-derived polynomial evaluates to its own y value 7 at x = 1), yet
`detectWrongShares` reports it as wrong. -/
theorem c8_counterexample :
    ((1 : Int), (7 : Int)) ∈ (sharesToPoints demoShares).take 2 ∧
    (∀ pt ∈ (sharesToPoints demoShares).take 2, pt.2 = 6 * pt.1 + 1) ∧
    detectWrongShares demoShares 2 PRIME =
      .ok (some (2 ^ 521 - 28), [(1, 7), (3, 19)]) ∧
    ((1 : Int), (7 : Int)) ∈ [((1 : Int), (7 : Int)), (3, 19)] := by
  refine ⟨by decide, by decide, by decide, by decide⟩

/-- C8 witness: instantiation of the characterisation on the
demonstration shares with threshold 2. -/
theorem c8_witness :
    detectWrongShares demoShares 2 PRIME = .ok (some (2 ^ 521 - 28),
      (sharesToPoints demoShares).filter
        (fun pt => decide (yEstimateAt ((sharesToPoints demoShares).take 2)
          pt.1 PRIME ≠ .ok pt.2))) := by
  refine c8_detect_first_subset_filter demoShares 2 PRIME (by decide) (2 ^ 521 - 28)
    (by decide) ?_
  intro pt hpt
  have h3 : pt = ((1 : Int), (7 : Int)) ∨ pt = (2, 13) ∨ pt = (3, 19) := by
    simpa [sharesToPoints, demoShares] using hpt
  rcases h3 with h | h | h
  · exact h ▸ ⟨-7, by decide⟩
  · exact h ▸ ⟨13, by decide⟩
  · exact h ▸ ⟨33, by decide⟩
